import Mathlib

/-!
Verification development for the documentation-extraction script
`scripts/build_moonblade_doc.py` of the xan repository.

The script compiles the fixed regular expression

  FUNCTION_RE = \s{4} - ([a-z0-9_]+)\(((?:[a-z0-9=?*_<>]+\s*,?\s*)*)\) -> ([a-z\[\]?,| ]+)

with the IGNORECASE flag, runs an external executable capturing its standard
output as text, and prints the captured-group triple of every non-overlapping
leftmost-first match (`re.findall` scan order).

Below we give a shallow embedding of this behaviour.  Because the regular
expression is fixed and none of its character classes contains the character
that delimits the following literal (the identifier class does not contain
the opening parenthesis, the parameter classes do not contain the closing
parenthesis, the return-type class does not contain the newline), the
backtracking matcher of Python's `re` module is deterministic on this
pattern: every greedy repetition can be realised by maximal munch.  The
definitions follow the pattern component by component.
-/

/-- Python's `\s` on `str` patterns: Unicode whitespace.  The exact set used
by CPython's `sre` engine (`Py_UNICODE_ISSPACE`). -/
def pySpace (c : Char) : Bool :=
  c == ' ' || c == '\t' || c == '\n' || c == '\r' || c == '\x0b' || c == '\x0c' ||
  ('\x1c' ≤ c && c ≤ '\x1f') || c == '\u0085' || c == '\u00a0' || c == '\u1680' ||
  ('\u2000' ≤ c && c ≤ '\u200a') || c == '\u2028' || c == '\u2029' ||
  c == '\u202f' || c == '\u205f' || c == '\u3000'

/-- The letters matched by `[a-z]` under `re.IGNORECASE` on `str`: the two
ASCII ranges plus the four non-ASCII characters that CPython's `sre`
engine case-folds into `a`-`z` (dotted and dotless i, long s, and the
Kelvin sign; verified exhaustively against CPython). -/
def reLetter (c : Char) : Bool :=
  ('a' ≤ c && c ≤ 'z') || ('A' ≤ c && c ≤ 'Z') ||
  c == '\u0130' || c == '\u0131' || c == '\u017f' || c == '\u212a'

/-- The class `[a-z0-9_]` of FUNCTION_RE group 1 (function name), under
IGNORECASE. -/
def identChar (c : Char) : Bool :=
  reLetter c || ('0' ≤ c && c ≤ '9') || c == '_'

/-- The class `[a-z0-9=?*_<>]` inside FUNCTION_RE group 2 (one parameter
token), under IGNORECASE. -/
def paramChar (c : Char) : Bool :=
  reLetter c || ('0' ≤ c && c ≤ '9') || c == '=' || c == '?' || c == '*' ||
  c == '_' || c == '<' || c == '>'

/-- The class `[a-z\[\]?,| ]` of FUNCTION_RE group 3 (return type), under
IGNORECASE. -/
def rtChar (c : Char) : Bool :=
  reLetter c || c == '[' || c == ']' || c == '?' || c == ',' || c == '|' || c == ' '

/-- Any character that the parameter-list group `(?:[a-z0-9=?*_<>]+\s*,?\s*)*`
can consume. -/
def paramMix (c : Char) : Bool :=
  paramChar c || pySpace c || c == ','

/-- State machine realising the greedy repetition
`(?:[a-z0-9=?*_<>]+\s*,?\s*)*` after its first token character has been
consumed.  State `true`: inside a token or in the whitespace run before a
comma (consumes token characters and whitespace, a comma switches state).
State `false`: after the comma of the current iteration (consumes
whitespace; a token character starts the next iteration; a second comma
stops the repetition).  Returns the consumed prefix (the captured group
content) and the unconsumed remainder. -/
def paramsAux : Bool → List Char → List Char × List Char
  | _, [] => ([], [])
  | true, c :: r =>
    if paramChar c || pySpace c then
      (c :: (paramsAux true r).1, (paramsAux true r).2)
    else if c == ',' then
      (c :: (paramsAux false r).1, (paramsAux false r).2)
    else ([], c :: r)
  | false, c :: r =>
    if pySpace c then
      (c :: (paramsAux false r).1, (paramsAux false r).2)
    else if paramChar c then
      (c :: (paramsAux true r).1, (paramsAux true r).2)
    else ([], c :: r)

/-- The parameter-list group `((?:[a-z0-9=?*_<>]+\s*,?\s*)*)` of FUNCTION_RE:
the repetition matches zero iterations unless the next character is a token
character (each iteration starts with `[a-z0-9=?*_<>]+`). -/
def parseParams : List Char → List Char × List Char
  | [] => ([], [])
  | c :: r =>
    if paramChar c then
      (c :: (paramsAux true r).1, (paramsAux true r).2)
    else ([], c :: r)

/-- One attempted match of FUNCTION_RE anchored at the head of `l`:
`\s{4}`, the literal characters of the pattern text (a space, a dash, a
space), group 1 `[a-z0-9_]+`, a literal opening parenthesis, group 2, a
literal closing parenthesis, the literal arrow, group 3 `[a-z\[\]?,| ]+`.
On success returns the three captured groups and the unconsumed suffix. -/
def FUNCTION_RE_matchAt (l : List Char) : Option ((String × String × String) × List Char) :=
  match l with
  | a :: b :: c :: d :: e :: f :: g :: rest =>
    if pySpace a && pySpace b && pySpace c && pySpace d &&
       (e == ' ') && (f == '-') && (g == ' ') then
      if (rest.takeWhile identChar).isEmpty then none
      else
        match rest.dropWhile identChar with
        | '(' :: r2 =>
          match (parseParams r2).2 with
          | ')' :: ' ' :: '-' :: '>' :: ' ' :: r4 =>
            if (r4.takeWhile rtChar).isEmpty then none
            else some ((String.mk (rest.takeWhile identChar),
                        String.mk (parseParams r2).1,
                        String.mk (r4.takeWhile rtChar)),
                       r4.dropWhile rtChar)
          | _ => none
        | _ => none
    else none
  | _ => none

/-- The scan loop of `re.findall`: try a match at every position from left to
right; on success record the groups and resume after the match.  `fuel`
bounds the recursion; `fuel ≥ length` is always sufficient because every
step consumes at least one character. -/
def findallAux : Nat → List Char → List (String × String × String)
  | 0, _ => []
  | _ + 1, [] => []
  | fuel + 1, c :: rest =>
    match FUNCTION_RE_matchAt (c :: rest) with
    | some (t, rem) => t :: findallAux fuel rem
    | none => findallAux fuel rest

/-- `FUNCTION_RE.findall` on a character list. -/
def FUNCTION_RE_findall (l : List Char) : List (String × String × String) :=
  findallAux l.length l

/-- The same scan, additionally recording for every match its start position
and end position (one past the last consumed character) in the scanned
text. -/
def spansAux : Nat → Nat → List Char → List (Nat × Nat × (String × String × String))
  | 0, _, _ => []
  | _ + 1, _, [] => []
  | fuel + 1, pos, c :: rest =>
    match FUNCTION_RE_matchAt (c :: rest) with
    | some (t, rem) =>
      (pos, pos + ((c :: rest).length - rem.length), t) ::
        spansAux fuel (pos + ((c :: rest).length - rem.length)) rem
    | none => spansAux fuel (pos + 1) rest

/-- Positions and groups of the non-overlapping leftmost-first matches of
FUNCTION_RE in `l`. -/
def FUNCTION_RE_spans (l : List Char) : List (Nat × Nat × (String × String × String)) :=
  spansAux l.length 0 l

/-- The script body: `for match in FUNCTION_RE.findall(FUNCTIONS): print(match)`.
Given the captured standard-output text, the sequence of tuples printed, one
per line, in scan order. -/
def scriptTuples (FUNCTIONS : String) : List (String × String × String) :=
  FUNCTION_RE_findall FUNCTIONS.data

/-- Model of Python's `subprocess.CompletedProcess` as used by the script:
captured standard output, captured standard error, and the exit status.
The script reads only the `stdout` field. -/
structure CompletedProcess where
  stdout : String
  stderr : String
  returncode : Int
  deriving DecidableEq

/-- Model of the error raised when the external executable cannot be found
or executed (Python `OSError` / `FileNotFoundError`). -/
structure LaunchError where
  message : String
  deriving DecidableEq

/-- The whole script run: the launch of the external process either fails
with an error (the script installs no handler, so the error propagates to
the caller) or yields a `CompletedProcess`, whose captured standard output
is scanned and whose tuples are printed. -/
def runScript (launch : Except LaunchError CompletedProcess) :
    Except LaunchError (List (String × String × String)) :=
  match launch with
  | Except.error e => Except.error e
  | Except.ok p => Except.ok (scriptTuples p.stdout)

/-- The tuples actually printed to standard output by a run: nothing is
printed when the launch fails, because the loop is never reached. -/
def printedTuples (launch : Except LaunchError CompletedProcess) :
    List (String × String × String) :=
  match runScript launch with
  | Except.error _ => []
  | Except.ok l => l

/-- Does the list start with the three characters space, dash, space (the
literal separator text of FUNCTION_RE)? -/
def sepHead3 : List Char → Bool
  | a :: b :: c :: _ => a == ' ' && b == '-' && c == ' '
  | _ => false

/-- Does the text contain the three-character separator anywhere? -/
def hasSep : List Char → Bool
  | [] => false
  | c :: r => sepHead3 (c :: r) || hasSep r

/-- Does the list start with four whitespace characters followed by the
three-character separator (the anchor part of FUNCTION_RE)? -/
def wsSepHead7 : List Char → Bool
  | a :: b :: c :: d :: e :: f :: g :: _ =>
    pySpace a && pySpace b && pySpace c && pySpace d &&
    (e == ' ') && (f == '-') && (g == ' ')
  | _ => false

/-- Does the text contain, anywhere, four whitespace characters followed by
the separator? -/
def hasWsSep : List Char → Bool
  | [] => false
  | c :: r => wsSepHead7 (c :: r) || hasWsSep r

/-- The separator occurs in `t` starting at index `k`. -/
def SepAt (t : List Char) (k : Nat) : Prop :=
  t[k]? = some ' ' ∧ t[k + 1]? = some '-' ∧ t[k + 2]? = some ' '

/-- A well-formed function entry line in the sense of the specification:
four literal spaces of indentation, then a dash and a space, an identifier,
a parenthesised parameter list, the arrow, and a return type filling the
rest of the line.  Formally: the line starts with four spaces and
FUNCTION_RE matches the line preceded by a newline, consuming it whole. -/
def wellFormedLine (l : List Char) : Bool :=
  (l.take 4 == [' ', ' ', ' ', ' ']) &&
  (match FUNCTION_RE_matchAt ('\n' :: l) with
   | some (_, rem) => rem.isEmpty
   | none => false)

/-- The tuple a well-formed line produces. -/
def tupleOfLine (l : List Char) : String × String × String :=
  match FUNCTION_RE_matchAt ('\n' :: l) with
  | some (t, _) => t
  | none => ("", "", "")

/-- A line acceptable to the line-decomposition theorem: either a
well-formed entry or a line that contains the separator nowhere. -/
def goodLine (l : List Char) : Prop :=
  wellFormedLine l = true ∨ hasSep l = false

instance goodLineDecidable (l : List Char) : Decidable (goodLine l) := by
  unfold goodLine
  infer_instance

/-- Join lines with newline separators (inverse of splitting a text into
lines). -/
def joinLines : List (List Char) → List Char
  | [] => []
  | [l] => l
  | l :: l2 :: ls => l ++ '\n' :: joinLines (l2 :: ls)

/-- Does the list start with four literal space characters? -/
def fourSpaceHead : List Char → Bool
  | ' ' :: ' ' :: ' ' :: ' ' :: _ => true
  | _ => false

/-- Is some line of the text (other than the first) indented by four literal
space characters? -/
def hasFourSpaceLineAux : List Char → Bool
  | [] => false
  | '\n' :: r => fourSpaceHead r || hasFourSpaceLineAux r
  | _ :: r => hasFourSpaceLineAux r

/-- Does the text contain a line indented by four literal space
characters? -/
def hasFourSpaceLine (t : List Char) : Bool :=
  fourSpaceHead t || hasFourSpaceLineAux t

/-! ### Character-class facts -/

theorem pySpace_ne_dash {c : Char} (h : pySpace c = true) : c ≠ '-' := by
  rintro rfl; exact absurd h (by decide)

theorem identChar_ne_dash {c : Char} (h : identChar c = true) : c ≠ '-' := by
  rintro rfl; exact absurd h (by decide)

theorem paramMix_ne_dash {c : Char} (h : paramMix c = true) : c ≠ '-' := by
  rintro rfl; exact absurd h (by decide)

theorem rtChar_ne_dash {c : Char} (h : rtChar c = true) : c ≠ '-' := by
  rintro rfl; exact absurd h (by decide)

/-! ### takeWhile / dropWhile facts -/

theorem dropWhile_isSuffix (p : α → Bool) (l : List α) : l.dropWhile p <:+ l :=
  ⟨l.takeWhile p, l.takeWhile_append_dropWhile p⟩

theorem takeWhile_eq_self_of_dropWhile_eq_nil {p : α → Bool} {l : List α}
    (h : l.dropWhile p = []) : l.takeWhile p = l := by
  have := l.takeWhile_append_dropWhile p
  rw [h, List.append_nil] at this
  exact this

theorem takeWhile_append_of_dropWhile_ne_nil {p : α → Bool} {l : List α}
    (h : l.dropWhile p ≠ []) (t : List α) :
    (l ++ t).takeWhile p = l.takeWhile p ∧ (l ++ t).dropWhile p = l.dropWhile p ++ t := by
  induction l with
  | nil => exact absurd rfl h
  | cons a r ih =>
    by_cases hpa : p a = true
    · simp only [List.cons_append, List.takeWhile_cons, List.dropWhile_cons, hpa, if_true]
      rcases ih (by simpa [List.dropWhile_cons, hpa] using h) with ⟨h1, h2⟩
      exact ⟨by rw [h1], by rw [h2]⟩
    · simp only [List.cons_append, List.takeWhile_cons, List.dropWhile_cons, hpa]
      simp

theorem takeWhile_append_of_all {p : α → Bool} {l : List α} {x : α}
    (h : l.dropWhile p = []) (hx : p x = false) (t : List α) :
    (l ++ x :: t).takeWhile p = l ∧ (l ++ x :: t).dropWhile p = x :: t := by
  induction l with
  | nil =>
    simp only [List.nil_append, List.takeWhile_cons, List.dropWhile_cons, hx]
    simp
  | cons a r ih =>
    by_cases hpa : p a = true
    · simp only [List.cons_append, List.takeWhile_cons, List.dropWhile_cons, hpa, if_true]
      rcases ih (by simpa [List.dropWhile_cons, hpa] using h) with ⟨h1, h2⟩
      exact ⟨by rw [h1], h2⟩
    · rw [List.dropWhile_cons, if_neg (by simp [hpa])] at h
      exact absurd h (by simp)

theorem mem_takeWhile_sat {p : α → Bool} {l : List α} {x : α}
    (h : x ∈ l.takeWhile p) : p x = true := by
  induction l with
  | nil => simp [List.takeWhile] at h
  | cons a r ih =>
    rw [List.takeWhile_cons] at h
    by_cases hpa : p a = true
    · rw [if_pos hpa] at h
      rcases List.mem_cons.mp h with rfl | h2
      · exact hpa
      · exact ih h2
    · rw [if_neg hpa] at h; simp at h

/-! ### paramsAux / parseParams facts -/

theorem paramsAux_true_go {c : Char} (r : List Char) (h : (paramChar c || pySpace c) = true) :
    paramsAux true (c :: r) = (c :: (paramsAux true r).1, (paramsAux true r).2) := by
  simp [paramsAux, h]

theorem paramsAux_true_comma {c : Char} (r : List Char)
    (h1 : (paramChar c || pySpace c) = false) (h2 : c = ',') :
    paramsAux true (c :: r) = (c :: (paramsAux false r).1, (paramsAux false r).2) := by
  subst h2
  simp [paramsAux, show paramChar ',' = false from by decide,
        show pySpace ',' = false from by decide]

theorem paramsAux_true_stop {c : Char} (r : List Char)
    (h1 : (paramChar c || pySpace c) = false) (h2 : c ≠ ',') :
    paramsAux true (c :: r) = ([], c :: r) := by
  simp [paramsAux, h1, h2]

theorem paramsAux_false_ws {c : Char} (r : List Char) (h : pySpace c = true) :
    paramsAux false (c :: r) = (c :: (paramsAux false r).1, (paramsAux false r).2) := by
  simp [paramsAux, h]

theorem paramsAux_false_go {c : Char} (r : List Char)
    (h1 : pySpace c = false) (h2 : paramChar c = true) :
    paramsAux false (c :: r) = (c :: (paramsAux true r).1, (paramsAux true r).2) := by
  simp [paramsAux, h1, h2]

theorem paramsAux_false_stop {c : Char} (r : List Char)
    (h1 : pySpace c = false) (h2 : paramChar c = false) :
    paramsAux false (c :: r) = ([], c :: r) := by
  simp [paramsAux, h1, h2]

theorem paramsAux_cases (st : Bool) (c : Char) (r : List Char) :
    (∃ st2, paramsAux st (c :: r) = (c :: (paramsAux st2 r).1, (paramsAux st2 r).2) ∧
      paramMix c = true) ∨
    paramsAux st (c :: r) = ([], c :: r) := by
  cases st
  · rcases h1 : pySpace c with _ | _
    · rcases h2 : paramChar c with _ | _
      · right; exact paramsAux_false_stop r h1 h2
      · left; exact ⟨true, paramsAux_false_go r h1 h2, by simp [paramMix, h2]⟩
    · left; exact ⟨false, paramsAux_false_ws r h1, by simp [paramMix, h1]⟩
  · rcases h1 : (paramChar c || pySpace c) with _ | _
    · by_cases h2 : c = ','
      · left; exact ⟨false, paramsAux_true_comma r h1 h2, by simp [paramMix, h2]⟩
      · right; exact paramsAux_true_stop r h1 h2
    · left; exact ⟨true, paramsAux_true_go r h1, by simp [paramMix, h1]⟩

theorem paramsAux_concat : ∀ (st : Bool) (l : List Char),
    (paramsAux st l).1 ++ (paramsAux st l).2 = l := by
  intro st l
  induction l generalizing st with
  | nil => cases st <;> simp [paramsAux]
  | cons c r ih =>
    rcases paramsAux_cases st c r with ⟨st2, heq, _⟩ | heq
    · rw [heq, List.cons_append, ih st2]
    · rw [heq]; rfl

theorem paramsAux_mem : ∀ (st : Bool) (l : List Char) (c : Char),
    c ∈ (paramsAux st l).1 → paramMix c = true := by
  intro st l
  induction l generalizing st with
  | nil => intro c h; cases st <;> simp [paramsAux] at h
  | cons a r ih =>
    intro c h
    rcases paramsAux_cases st a r with ⟨st2, heq, hmix⟩ | heq
    · rw [heq] at h
      rcases List.mem_cons.mp h with rfl | h2
      · exact hmix
      · exact ih st2 c h2
    · rw [heq] at h; simp at h

theorem paramsAux_append : ∀ (st : Bool) (l t : List Char),
    (paramsAux st l).2 ≠ [] →
    paramsAux st (l ++ t) = ((paramsAux st l).1, (paramsAux st l).2 ++ t) := by
  intro st l
  induction l generalizing st with
  | nil => intro t h; cases st <;> exact absurd (by simp [paramsAux]) h
  | cons a r ih =>
    intro t h
    rw [List.cons_append]
    cases st
    · rcases h1 : pySpace a with _ | _
      · rcases h2 : paramChar a with _ | _
        · rw [paramsAux_false_stop r h1 h2, paramsAux_false_stop (r ++ t) h1 h2,
              List.cons_append]
        · rw [paramsAux_false_go r h1 h2] at h ⊢
          rw [paramsAux_false_go (r ++ t) h1 h2, ih true t (by simpa using h)]
      · rw [paramsAux_false_ws r h1] at h ⊢
        rw [paramsAux_false_ws (r ++ t) h1, ih false t (by simpa using h)]
    · rcases h1 : (paramChar a || pySpace a) with _ | _
      · by_cases h2 : a = ','
        · rw [paramsAux_true_comma r h1 h2] at h ⊢
          rw [paramsAux_true_comma (r ++ t) h1 h2, ih false t (by simpa using h)]
        · rw [paramsAux_true_stop r h1 h2, paramsAux_true_stop (r ++ t) h1 h2,
              List.cons_append]
      · rw [paramsAux_true_go r h1] at h ⊢
        rw [paramsAux_true_go (r ++ t) h1, ih true t (by simpa using h)]

theorem parseParams_concat (l : List Char) :
    (parseParams l).1 ++ (parseParams l).2 = l := by
  cases l with
  | nil => simp [parseParams]
  | cons c r =>
    by_cases h : paramChar c = true
    · simp only [parseParams, h, if_true, List.cons_append]
      rw [paramsAux_concat true r]
    · simp [parseParams, h]

theorem parseParams_mem {l : List Char} {c : Char}
    (h : c ∈ (parseParams l).1) : paramMix c = true := by
  cases l with
  | nil => simp [parseParams] at h
  | cons a r =>
    by_cases ha : paramChar a = true
    · simp only [parseParams, ha, if_true, List.mem_cons] at h
      rcases h with rfl | h
      · simp [paramMix, ha]
      · exact paramsAux_mem true r c h
    · simp [parseParams, ha] at h

theorem parseParams_append {l : List Char} (t : List Char)
    (h : (parseParams l).2 ≠ []) :
    parseParams (l ++ t) = ((parseParams l).1, (parseParams l).2 ++ t) := by
  cases l with
  | nil => exact absurd (by simp [parseParams]) h
  | cons a r =>
    rw [List.cons_append]
    by_cases ha : paramChar a = true
    · simp only [parseParams, ha, if_true] at h ⊢
      rw [paramsAux_append true r t (by simpa using h)]
    · simp only [parseParams, ha, if_false]
      simp [ha]

/-! ### FUNCTION_RE_matchAt facts -/

theorem FUNCTION_RE_matchAt_inv {l : List Char} {tr : String × String × String}
    {rem : List Char} (h : FUNCTION_RE_matchAt l = some (tr, rem)) :
    ∃ a b c d rest r2 r4,
      l = a :: b :: c :: d :: ' ' :: '-' :: ' ' :: rest ∧
      pySpace a = true ∧ pySpace b = true ∧ pySpace c = true ∧ pySpace d = true ∧
      rest.takeWhile identChar ≠ [] ∧
      rest.dropWhile identChar = '(' :: r2 ∧
      (parseParams r2).2 = ')' :: ' ' :: '-' :: '>' :: ' ' :: r4 ∧
      r4.takeWhile rtChar ≠ [] ∧
      tr = (String.mk (rest.takeWhile identChar), String.mk (parseParams r2).1,
            String.mk (r4.takeWhile rtChar)) ∧
      rem = r4.dropWhile rtChar := by
  rcases l with _ | ⟨a, l⟩
  · simp [FUNCTION_RE_matchAt] at h
  rcases l with _ | ⟨b, l⟩
  · simp [FUNCTION_RE_matchAt] at h
  rcases l with _ | ⟨c, l⟩
  · simp [FUNCTION_RE_matchAt] at h
  rcases l with _ | ⟨d, l⟩
  · simp [FUNCTION_RE_matchAt] at h
  rcases l with _ | ⟨e, l⟩
  · simp [FUNCTION_RE_matchAt] at h
  rcases l with _ | ⟨f, l⟩
  · simp [FUNCTION_RE_matchAt] at h
  rcases l with _ | ⟨g, rest⟩
  · simp [FUNCTION_RE_matchAt] at h
  simp only [FUNCTION_RE_matchAt] at h
  split at h
  case isFalse => exact absurd h (by simp)
  case isTrue hcond =>
    simp only [Bool.and_eq_true, beq_iff_eq] at hcond
    obtain ⟨⟨⟨⟨⟨⟨ha, hb⟩, hc⟩, hd⟩, he⟩, hf⟩, hg⟩ := hcond
    subst he; subst hf; subst hg
    split at h
    case isTrue => exact absurd h (by simp)
    case isFalse hne =>
      split at h
      case h_2 => exact absurd h (by simp)
      case h_1 r2 heq =>
        split at h
        case h_2 => exact absurd h (by simp)
        case h_1 r4 heq2 =>
          split at h
          case isTrue => exact absurd h (by simp)
          case isFalse hne2 =>
            have h2 := Option.some.inj h
            have htr : tr = (String.mk (rest.takeWhile identChar),
                String.mk (parseParams r2).1, String.mk (r4.takeWhile rtChar)) := by
              have := congrArg Prod.fst h2
              exact this.symm
            have hrem : rem = r4.dropWhile rtChar := by
              have := congrArg Prod.snd h2
              exact this.symm
            refine ⟨a, b, c, d, rest, r2, r4, rfl, ha, hb, hc, hd, ?_, heq, heq2, ?_,
              htr, hrem⟩
            · simpa [List.isEmpty_iff] using hne
            · simpa [List.isEmpty_iff] using hne2

theorem FUNCTION_RE_matchAt_construct {a b c d : Char} {rest r2 r4 : List Char}
    (ha : pySpace a = true) (hb : pySpace b = true) (hc : pySpace c = true)
    (hd : pySpace d = true)
    (hname : rest.takeWhile identChar ≠ [])
    (hdw : rest.dropWhile identChar = '(' :: r2)
    (hpp : (parseParams r2).2 = ')' :: ' ' :: '-' :: '>' :: ' ' :: r4)
    (hrt : r4.takeWhile rtChar ≠ []) :
    FUNCTION_RE_matchAt (a :: b :: c :: d :: ' ' :: '-' :: ' ' :: rest) =
      some ((String.mk (rest.takeWhile identChar), String.mk (parseParams r2).1,
             String.mk (r4.takeWhile rtChar)), r4.dropWhile rtChar) := by
  simp only [FUNCTION_RE_matchAt]
  rw [if_pos (by simp [ha, hb, hc, hd]), if_neg (by simpa [List.isEmpty_iff] using hname),
      hdw]
  split
  case h_1 r2x heq =>
    obtain rfl : r2x = r2 := by
      injection heq with _ h2
      exact h2.symm
    rw [hpp]
    split
    case h_1 r4x heq2 =>
      obtain rfl : r4x = r4 := by
        injection heq2 with _ h2; injection h2 with _ h3; injection h3 with _ h4
        injection h4 with _ h5; injection h5 with _ h6
        exact h6.symm
      rw [if_neg (by simpa [List.isEmpty_iff] using hrt)]
    case h_2 hno =>
      exact (hno r4 rfl).elim
  case h_2 hno =>
    exact (hno r2 rfl).elim

theorem FUNCTION_RE_matchAt_sepAt4 {l : List Char} {p : (String × String × String) × List Char}
    (h : FUNCTION_RE_matchAt l = some p) : SepAt l 4 := by
  rcases p with ⟨tr, rem⟩
  obtain ⟨a, b, c, d, rest, r2, r4, hl, -, -, -, -, -, -, -, -, -, -⟩ :=
    FUNCTION_RE_matchAt_inv h
  subst hl
  refine ⟨?_, ?_, ?_⟩ <;> simp [SepAt]

theorem FUNCTION_RE_matchAt_suffix {l : List Char} {tr : String × String × String}
    {rem : List Char} (h : FUNCTION_RE_matchAt l = some (tr, rem)) :
    rem <:+ l ∧ rem.length < l.length := by
  obtain ⟨a, b, c, d, rest, r2, r4, hl, -, -, -, -, hname, hdw, hpp, -, -, hrem⟩ :=
    FUNCTION_RE_matchAt_inv h
  subst hl; subst hrem
  have s1 : r4.dropWhile rtChar <:+ r4 := dropWhile_isSuffix rtChar r4
  have s2 : r4 <:+ (parseParams r2).2 := by
    rw [hpp]; exact ⟨[')', ' ', '-', '>', ' '], rfl⟩
  have s3 : (parseParams r2).2 <:+ r2 := ⟨(parseParams r2).1, parseParams_concat r2⟩
  have s4a : ('(' :: r2) <:+ rest := hdw ▸ dropWhile_isSuffix identChar rest
  have s4 : r2 <:+ rest := List.IsSuffix.trans ⟨['('], rfl⟩ s4a
  have s5 : rest <:+ a :: b :: c :: d :: ' ' :: '-' :: ' ' :: rest :=
    ⟨[a, b, c, d, ' ', '-', ' '], rfl⟩
  refine ⟨((((s1.trans s2).trans s3).trans s4).trans s5), ?_⟩
  have l1 := s1.length_le
  have l4 := s4.length_le
  have l2 : r4.length + 5 = (parseParams r2).2.length := by rw [hpp]; simp
  have l3 := s3.length_le
  simp only [List.length_cons]
  omega

theorem FUNCTION_RE_matchAt_append {l : List Char} {tr : String × String × String}
    (x : Char) (ys : List Char) (h : FUNCTION_RE_matchAt l = some (tr, []))
    (hx : rtChar x = false) :
    FUNCTION_RE_matchAt (l ++ x :: ys) = some (tr, x :: ys) := by
  obtain ⟨a, b, c, d, rest, r2, r4, hl, ha, hb, hc, hd, hname, hdw, hpp, hrt, htr, hrem⟩ :=
    FUNCTION_RE_matchAt_inv h
  subst hl
  have hr4 : r4.dropWhile rtChar = [] := hrem.symm
  have hr4tw : r4.takeWhile rtChar = r4 := takeWhile_eq_self_of_dropWhile_eq_nil hr4
  have happ : (a :: b :: c :: d :: ' ' :: '-' :: ' ' :: rest) ++ x :: ys =
      a :: b :: c :: d :: ' ' :: '-' :: ' ' :: (rest ++ x :: ys) := by simp
  rw [happ]
  have hdwne : rest.dropWhile identChar ≠ [] := by rw [hdw]; simp
  obtain ⟨htw2, hdw2⟩ := takeWhile_append_of_dropWhile_ne_nil hdwne (x :: ys)
  have hdw2' : (rest ++ x :: ys).dropWhile identChar = '(' :: (r2 ++ x :: ys) := by
    rw [hdw2, hdw]; simp
  have hppne : (parseParams r2).2 ≠ [] := by rw [hpp]; simp
  have hpp2 := parseParams_append (x :: ys) hppne
  have hpp2' : (parseParams (r2 ++ x :: ys)).2 =
      ')' :: ' ' :: '-' :: '>' :: ' ' :: (r4 ++ x :: ys) := by
    rw [hpp2]; simp [hpp]
  obtain ⟨hrtw, hrdw⟩ := takeWhile_append_of_all hr4 hx ys
  have hrtne : (r4 ++ x :: ys).takeWhile rtChar ≠ [] := by
    rw [hrtw]
    intro hcon
    exact hrt (hr4tw.trans hcon)
  have hmain := FUNCTION_RE_matchAt_construct ha hb hc hd
    (by rw [htw2]; exact hname) hdw2' hpp2' hrtne
  rw [hmain, htr]
  have hfst : (parseParams (r2 ++ x :: ys)).1 = (parseParams r2).1 := by
    rw [hpp2]
  rw [htw2, hrtw, hrdw, hfst, hr4tw]

/-! ### findallAux / spansAux facts -/

theorem findallAux_nil : ∀ fuel, findallAux fuel [] = [] := by
  intro fuel; cases fuel <;> rfl

theorem findallAux_fuel : ∀ (n f1 f2 : Nat) (l : List Char), l.length ≤ n →
    l.length ≤ f1 → l.length ≤ f2 → findallAux f1 l = findallAux f2 l := by
  intro n
  induction n with
  | zero =>
    intro f1 f2 l hn _ _
    have : l = [] := List.length_eq_zero.mp (Nat.le_zero.mp hn)
    subst this
    rw [findallAux_nil, findallAux_nil]
  | succ n ih =>
    intro f1 f2 l hn h1 h2
    cases l with
    | nil => rw [findallAux_nil, findallAux_nil]
    | cons c r =>
      have hl : (c :: r).length = r.length + 1 := by simp
      cases f1 with
      | zero => simp [hl] at h1
      | succ g1 =>
        cases f2 with
        | zero => simp [hl] at h2
        | succ g2 =>
          simp only [findallAux]
          cases hm : FUNCTION_RE_matchAt (c :: r) with
          | none =>
            show findallAux g1 r = findallAux g2 r
            exact ih g1 g2 r (by simp at hn; omega) (by simp at h1; omega)
              (by simp at h2; omega)
          | some p =>
            rcases p with ⟨tr, rem⟩
            obtain ⟨-, hlt⟩ := FUNCTION_RE_matchAt_suffix hm
            show tr :: findallAux g1 rem = tr :: findallAux g2 rem
            rw [ih g1 g2 rem (by simp at hn hlt; omega) (by simp at h1 hlt; omega)
              (by simp at h2 hlt; omega)]

theorem findallAux_eq_findall {fuel : Nat} {l : List Char} (h : l.length ≤ fuel) :
    findallAux fuel l = FUNCTION_RE_findall l :=
  findallAux_fuel fuel fuel l.length l (by omega) h (by omega)

theorem findall_append_of_nomatch : ∀ (A tail : List Char),
    (∀ k, k < A.length → FUNCTION_RE_matchAt (A.drop k ++ tail) = none) →
    FUNCTION_RE_findall (A ++ tail) = FUNCTION_RE_findall tail := by
  intro A
  induction A with
  | nil => intro tail _; simp
  | cons c A' ih =>
    intro tail hyp
    have h0 : FUNCTION_RE_matchAt ((c :: A') ++ tail) = none := by
      have := hyp 0 (by simp)
      simpa using this
    show findallAux ((c :: A') ++ tail).length ((c :: A') ++ tail) = _
    rw [List.cons_append]
    have hlen : (c :: (A' ++ tail)).length = (A' ++ tail).length + 1 := by simp
    rw [hlen]
    simp only [findallAux]
    rw [List.cons_append] at h0
    rw [h0]
    have : findallAux (A' ++ tail).length (A' ++ tail) = FUNCTION_RE_findall (A' ++ tail) :=
      rfl
    rw [this, ih tail ?_]
    intro k hk
    have := hyp (k + 1) (by simp; omega)
    simpa [List.drop_succ_cons] using this

theorem matchAt_rem_drop {t : List Char} {pos : Nat} {c : Char} {r rem : List Char}
    {tr : String × String × String} (hdp : t.drop pos = c :: r)
    (hm : FUNCTION_RE_matchAt (c :: r) = some (tr, rem)) :
    1 ≤ (c :: r).length - rem.length ∧
    rem = t.drop (pos + ((c :: r).length - rem.length)) := by
  obtain ⟨⟨pre, hpre⟩, hlt⟩ := FUNCTION_RE_matchAt_suffix hm
  have hplen : pre.length = (c :: r).length - rem.length := by
    have := congrArg List.length hpre
    simp only [List.length_append] at this
    omega
  refine ⟨by omega, ?_⟩
  have hd : (t.drop pos).drop pre.length = rem := by
    rw [hdp, ← hpre]
    exact List.drop_left pre rem
  rw [List.drop_drop] at hd
  rw [← hplen]
  exact hd.symm

theorem spansAux_lower : ∀ (fuel pos : Nat) (l : List Char),
    ∀ sp ∈ spansAux fuel pos l, pos ≤ sp.1 := by
  intro fuel
  induction fuel with
  | zero => intro pos l sp h; simp [spansAux] at h
  | succ f ih =>
    intro pos l sp h
    cases l with
    | nil => simp [spansAux] at h
    | cons c r =>
      simp only [spansAux] at h
      cases hm : FUNCTION_RE_matchAt (c :: r) with
      | none =>
        rw [hm] at h
        have := ih (pos + 1) r sp h
        omega
      | some p =>
        rcases p with ⟨tr, rem⟩
        rw [hm] at h
        rcases List.mem_cons.mp h with rfl | h2
        · simp
        · have := ih _ rem sp h2
          omega

theorem spansAux_sound : ∀ (fuel pos : Nat) (t : List Char),
    ∀ sp ∈ spansAux fuel pos (t.drop pos),
      sp.1 < sp.2.1 ∧
      FUNCTION_RE_matchAt (t.drop sp.1) = some (sp.2.2, t.drop sp.2.1) := by
  intro fuel
  induction fuel with
  | zero => intro pos t sp h; simp [spansAux] at h
  | succ f ih =>
    intro pos t sp h
    cases hdp : t.drop pos with
    | nil => rw [hdp] at h; simp [spansAux] at h
    | cons c r =>
      rw [hdp] at h
      simp only [spansAux] at h
      cases hm : FUNCTION_RE_matchAt (c :: r) with
      | none =>
        rw [hm] at h
        have hr : t.drop (pos + 1) = r := by
          rw [← List.drop_drop, hdp]
          simp
        have := ih (pos + 1) t sp (by rw [hr]; exact h)
        exact this
      | some p =>
        rcases p with ⟨tr, rem⟩
        rw [hm] at h
        obtain ⟨hk1, hremd⟩ := matchAt_rem_drop hdp hm
        rcases List.mem_cons.mp h with rfl | h2
        · refine ⟨?_, ?_⟩
          · show pos < pos + ((c :: r).length - rem.length)
            omega
          · show FUNCTION_RE_matchAt (t.drop pos) =
              some (tr, t.drop (pos + ((c :: r).length - rem.length)))
            rw [hdp, hm, ← hremd]
        · have := ih (pos + ((c :: r).length - rem.length)) t sp (by rw [← hremd]; exact h2)
          exact this

theorem spansAux_chain : ∀ (fuel pos : Nat) (l : List Char),
    List.Pairwise (fun sp sq => sp.2.1 ≤ sq.1) (spansAux fuel pos l) := by
  intro fuel
  induction fuel with
  | zero => intro pos l; simp [spansAux]
  | succ f ih =>
    intro pos l
    cases l with
    | nil => simp [spansAux]
    | cons c r =>
      simp only [spansAux]
      cases hm : FUNCTION_RE_matchAt (c :: r) with
      | none => exact ih (pos + 1) r
      | some p =>
        rcases p with ⟨tr, rem⟩
        refine List.Pairwise.cons ?_ (ih _ rem)
        intro sq hq
        exact spansAux_lower f _ rem sq hq

theorem spansAux_complete : ∀ (fuel pos : Nat) (t : List Char),
    (t.drop pos).length ≤ fuel →
    ∀ i, pos ≤ i → (FUNCTION_RE_matchAt (t.drop i)).isSome = true →
    ∃ sp ∈ spansAux fuel pos (t.drop pos), sp.1 ≤ i ∧ i < sp.2.1 := by
  intro fuel
  induction fuel with
  | zero =>
    intro pos t hf i hpi hsome
    have hnil : t.drop pos = [] := List.length_eq_zero.mp (Nat.le_zero.mp hf)
    have : t.drop i = [] := by
      rw [List.drop_eq_nil_iff]
      have := List.drop_eq_nil_iff.mp hnil
      omega
    rw [this] at hsome
    simp [FUNCTION_RE_matchAt] at hsome
  | succ f ih =>
    intro pos t hf i hpi hsome
    cases hdp : t.drop pos with
    | nil =>
      have : t.drop i = [] := by
        rw [List.drop_eq_nil_iff]
        have := List.drop_eq_nil_iff.mp hdp
        omega
      rw [this] at hsome
      simp [FUNCTION_RE_matchAt] at hsome
    | cons c r =>
      rw [hdp] at hf
      simp only [spansAux]
      cases hm : FUNCTION_RE_matchAt (c :: r) with
      | none =>
        have hr : t.drop (pos + 1) = r := by
          rw [← List.drop_drop, hdp]
          simp
        have hipos : i ≠ pos := by
          intro hcon
          rw [hcon, hdp, hm] at hsome
          simp at hsome
        have hlen : r.length ≤ f := by
          simp only [List.length_cons] at hf
          omega
        obtain ⟨sp, hmem, hle, hlt⟩ := ih (pos + 1) t (by rw [hr]; exact hlen) i
          (by omega) hsome
        exact ⟨sp, by rw [← hr]; exact hmem, hle, hlt⟩
      | some p =>
        rcases p with ⟨tr, rem⟩
        obtain ⟨hk1, hremd⟩ := matchAt_rem_drop hdp hm
        by_cases hcase : i < pos + ((c :: r).length - rem.length)
        · refine ⟨(pos, pos + ((c :: r).length - rem.length), tr), ?_, hpi, hcase⟩
          exact List.mem_cons_self _ _
        · have hlen : rem.length ≤ f := by
            obtain ⟨-, hlt⟩ := FUNCTION_RE_matchAt_suffix hm
            simp only [List.length_cons] at hf hlt
            omega
          obtain ⟨sp, hmem, hle, hlt⟩ := ih (pos + ((c :: r).length - rem.length)) t
            (by rw [← hremd]; exact hlen) i (by omega) hsome
          refine ⟨sp, ?_, hle, hlt⟩
          exact List.mem_cons_of_mem _ (by rw [← hremd] at hmem; exact hmem)

theorem findallAux_eq_spans_map : ∀ (fuel pos : Nat) (l : List Char),
    findallAux fuel l = (spansAux fuel pos l).map (fun sp => sp.2.2) := by
  intro fuel
  induction fuel with
  | zero => intro pos l; simp [findallAux, spansAux]
  | succ f ih =>
    intro pos l
    cases l with
    | nil => simp [findallAux, spansAux]
    | cons c r =>
      simp only [findallAux, spansAux]
      cases hm : FUNCTION_RE_matchAt (c :: r) with
      | none => exact ih (pos + 1) r
      | some p =>
        rcases p with ⟨tr, rem⟩
        show tr :: findallAux f rem = tr :: (spansAux f _ rem).map (fun sp => sp.2.2)
        rw [ih _ rem]

/-! ### Separator-occurrence facts -/

theorem mem_of_getElem?_some {l : List α} {n : Nat} {a : α} (h : l[n]? = some a) : a ∈ l := by
  obtain ⟨hlt, rfl⟩ := List.getElem?_eq_some.mp h
  exact List.getElem_mem hlt

theorem SepAt_nil (k : Nat) : ¬ SepAt [] k := by
  simp [SepAt]

theorem SepAt_cons_succ {c : Char} {r : List Char} {k : Nat} :
    SepAt (c :: r) (k + 1) ↔ SepAt r k := by
  simp [SepAt, List.getElem?_cons_succ]

theorem hasSep_false_not_sepAt {l : List Char} (h : hasSep l = false) :
    ∀ k, ¬ SepAt l k := by
  induction l with
  | nil => exact SepAt_nil
  | cons c r ih =>
    have h2 : sepHead3 (c :: r) = false ∧ hasSep r = false := by
      rw [hasSep] at h
      exact ⟨by rcases Bool.or_eq_false_iff.mp h with ⟨h1, _⟩; exact h1,
             by rcases Bool.or_eq_false_iff.mp h with ⟨_, h1⟩; exact h1⟩
    intro k hk
    cases k with
    | succ k2 => exact ih h2.2 k2 (SepAt_cons_succ.mp hk)
    | zero =>
      obtain ⟨h0, h1, hsep2⟩ := hk
      have hc : c = ' ' := by simpa using h0
      cases r with
      | nil => simp at h1
      | cons x r2 =>
        have hx : x = '-' := by simpa using h1
        cases r2 with
        | nil => simp at hsep2
        | cons y r3 =>
          have hy : y = ' ' := by simpa using hsep2
          subst hc; subst hx; subst hy
          simp [sepHead3] at h2

theorem sepAt_hasSep {l : List Char} {k : Nat} (h : SepAt l k) : hasSep l = true := by
  induction l generalizing k with
  | nil => exact absurd h (SepAt_nil k)
  | cons c r ih =>
    rw [hasSep]
    cases k with
    | succ k2 => rw [ih (SepAt_cons_succ.mp h)]; simp
    | zero =>
      obtain ⟨h0, h1, h2⟩ := h
      have hc : c = ' ' := by simpa using h0
      cases r with
      | nil => simp at h1
      | cons x r2 =>
        have hx : x = '-' := by simpa using h1
        cases r2 with
        | nil => simp at h2
        | cons y r3 =>
          have hy : y = ' ' := by simpa using h2
          subst hc; subst hx; subst hy
          simp [sepHead3]

theorem FUNCTION_RE_matchAt_wsSepHead {l : List Char}
    {p : (String × String × String) × List Char}
    (h : FUNCTION_RE_matchAt l = some p) : wsSepHead7 l = true := by
  rcases p with ⟨tr, rem⟩
  obtain ⟨a, b, c, d, rest, r2, r4, hl, ha, hb, hc, hd, -, -, -, -, -, -⟩ :=
    FUNCTION_RE_matchAt_inv h
  subst hl
  simp [wsSepHead7, ha, hb, hc, hd]

theorem hasWsSep_false_findallAux : ∀ (fuel : Nat) (l : List Char),
    hasWsSep l = false → findallAux fuel l = [] := by
  intro fuel
  induction fuel with
  | zero => intro l _; rfl
  | succ f ih =>
    intro l h
    cases l with
    | nil => rfl
    | cons c r =>
      have h2 : wsSepHead7 (c :: r) = false ∧ hasWsSep r = false := by
        rw [hasWsSep] at h
        exact ⟨by rcases Bool.or_eq_false_iff.mp h with ⟨h1, _⟩; exact h1,
               by rcases Bool.or_eq_false_iff.mp h with ⟨_, h1⟩; exact h1⟩
      simp only [findallAux]
      cases hm : FUNCTION_RE_matchAt (c :: r) with
      | some p =>
        have := FUNCTION_RE_matchAt_wsSepHead hm
        rw [h2.1] at this
        simp at this
      | none => exact ih r h2.2

/-! ### Well-formed entry lines -/

theorem wellFormedLine_struct {l : List Char} (h : wellFormedLine l = true) :
    ∃ name params rt,
      l = ' ' :: ' ' :: ' ' :: ' ' :: '-' :: ' ' ::
        (name ++ '(' :: (params ++ ')' :: ' ' :: '-' :: '>' :: ' ' :: rt)) ∧
      name ≠ [] ∧ (∀ x ∈ name, identChar x = true) ∧
      (∀ x ∈ params, paramMix x = true) ∧
      rt ≠ [] ∧ (∀ x ∈ rt, rtChar x = true) ∧
      FUNCTION_RE_matchAt ('\n' :: l) =
        some ((String.mk name, String.mk params, String.mk rt), []) ∧
      tupleOfLine l = (String.mk name, String.mk params, String.mk rt) := by
  rw [wellFormedLine, Bool.and_eq_true] at h
  obtain ⟨htake, hmatch⟩ := h
  have htake4 : l.take 4 = [' ', ' ', ' ', ' '] := by simpa using htake
  cases hm : FUNCTION_RE_matchAt ('\n' :: l) with
  | none => rw [hm] at hmatch; simp at hmatch
  | some p =>
    rcases p with ⟨tr, rem⟩
    rw [hm] at hmatch
    have hremnil : rem = [] := by simpa [List.isEmpty_iff] using hmatch
    subst hremnil
    obtain ⟨a, b, c, d, rest, r2, r4, hl, ha, hb, hc, hd, hname, hdw, hpp, hrtne, htr, hrem⟩ :=
      FUNCTION_RE_matchAt_inv hm
    injection hl with ha2 hl2
    subst hl2
    have hbcd : b = ' ' ∧ c = ' ' ∧ d = ' ' := by
      simpa using htake4
    obtain ⟨hb2, hc2, hd2⟩ := hbcd
    subst hb2; subst hc2; subst hd2
    have hr4 : r4.dropWhile rtChar = [] := hrem.symm
    have hr4tw : r4.takeWhile rtChar = r4 := takeWhile_eq_self_of_dropWhile_eq_nil hr4
    refine ⟨rest.takeWhile identChar, (parseParams r2).1, r4, ?_, hname, ?_, ?_, ?_, ?_, ?_, ?_⟩
    · have hrest : rest = rest.takeWhile identChar ++ '(' :: r2 := by
        rw [← hdw]
        exact (rest.takeWhile_append_dropWhile identChar).symm
      have hr2 : r2 = (parseParams r2).1 ++ ')' :: ' ' :: '-' :: '>' :: ' ' :: r4 := by
        rw [← hpp]
        exact (parseParams_concat r2).symm
      conv_lhs => rw [hrest, hr2]
    · intro x hx; exact mem_takeWhile_sat hx
    · intro x hx; exact parseParams_mem hx
    · intro hcon; subst hcon; exact hrtne rfl
    · intro x hx
      rw [← hr4tw] at hx
      exact mem_takeWhile_sat hx
    · rw [htr, hr4tw]
    · simp only [tupleOfLine]
      rw [hm, htr, hr4tw]

theorem entry_suffix_getElem_high (name params W : List Char) {i : Nat}
    (hi : name.length + 1 + params.length ≤ i) :
    (name ++ '(' :: (params ++ W))[i]? = W[i - (name.length + 1 + params.length)]? := by
  rw [List.getElem?_append_right (by omega)]
  have h1 : i - name.length = (i - name.length - 1) + 1 := by omega
  rw [h1, List.getElem?_cons_succ]
  rw [List.getElem?_append_right (by omega)]
  congr 1
  omega

theorem entry_rest_getElem {name params W : List Char} {i : Nat} {x : Char}
    (h : (name ++ '(' :: (params ++ W))[i]? = some x) :
    (i < name.length ∧ x ∈ name) ∨
    (i = name.length ∧ x = '(') ∨
    (name.length + 1 ≤ i ∧ i < name.length + 1 + params.length ∧ x ∈ params) ∨
    (name.length + 1 + params.length ≤ i ∧
      W[i - (name.length + 1 + params.length)]? = some x) := by
  rcases Nat.lt_or_ge i name.length with hlt | hge
  · left
    rw [List.getElem?_append_left hlt] at h
    exact ⟨hlt, mem_of_getElem?_some h⟩
  · rw [List.getElem?_append_right hge] at h
    rcases Nat.eq_zero_or_pos (i - name.length) with hz | hpos
    · rw [hz, List.getElem?_cons_zero] at h
      right; left
      refine ⟨by omega, ?_⟩
      injection h with h2
      exact h2.symm
    · have h1 : i - name.length = (i - name.length - 1) + 1 := by omega
      rw [h1, List.getElem?_cons_succ] at h
      rcases Nat.lt_or_ge (i - name.length - 1) params.length with hlt2 | hge2
      · right; right; left
        rw [List.getElem?_append_left hlt2] at h
        exact ⟨by omega, by omega, mem_of_getElem?_some h⟩
      · right; right; right
        rw [List.getElem?_append_right hge2] at h
        refine ⟨by omega, ?_⟩
        rw [show i - (name.length + 1 + params.length) =
          i - name.length - 1 - params.length from by omega]
        exact h

theorem entry_rest_no_sep {name params rt : List Char}
    (hnameall : ∀ x ∈ name, identChar x = true)
    (hparamsall : ∀ x ∈ params, paramMix x = true)
    (hrtall : ∀ x ∈ rt, rtChar x = true) :
    ∀ j, ¬ SepAt (name ++ '(' :: (params ++ ')' :: ' ' :: '-' :: '>' :: ' ' :: rt)) j := by
  intro j hsep
  obtain ⟨h0, h1, h2⟩ := hsep
  rcases entry_rest_getElem h1 with ⟨-, hmem⟩ | ⟨-, hx⟩ | ⟨-, -, hmem⟩ | ⟨hge, hW⟩
  · exact absurd (hnameall _ hmem) (by decide)
  · exact absurd hx (by decide)
  · exact absurd (hparamsall _ hmem) (by decide)
  · set N := name.length + 1 + params.length with hN
    rcases hm : (j + 1 - N) with _ | _ | _ | _ | _ | m
    · rw [hm] at hW; simp at hW
    · rw [hm] at hW; simp at hW
    · -- the arrow dash: the character after it is the greater-than sign
      have hj2 : N ≤ j + 2 := by omega
      have hW2 := entry_suffix_getElem_high name params
        (')' :: ' ' :: '-' :: '>' :: ' ' :: rt) hj2
      rw [← hN] at hW2
      rw [hW2, show j + 2 - N = 3 from by omega] at h2
      simp at h2
    · rw [hm] at hW; simp at hW
    · rw [hm] at hW; simp at hW
    · rw [hm] at hW
      simp only [List.getElem?_cons_succ] at hW
      exact absurd (hrtall _ (mem_of_getElem?_some hW)) (by decide)

theorem wf_sepAt_eq_three {l : List Char} (h : wellFormedLine l = true) :
    ∀ k, SepAt l k → k = 3 := by
  obtain ⟨name, params, rt, hl, hnamene, hnameall, hparamsall, hrtne, hrtall, -, -⟩ :=
    wellFormedLine_struct h
  subst hl
  intro k hk
  rcases k with _ | _ | _ | _ | _ | _ | k
  · obtain ⟨-, h1, -⟩ := hk; simp [SepAt] at h1
  · obtain ⟨-, h1, -⟩ := hk; simp [SepAt] at h1
  · obtain ⟨-, h1, -⟩ := hk; simp [SepAt] at h1
  · rfl
  · obtain ⟨h0, -, -⟩ := hk; simp [SepAt] at h0
  · obtain ⟨-, h1, -⟩ := hk
    simp only [List.getElem?_cons_succ] at h1
    cases hn : name with
    | nil => exact absurd hn hnamene
    | cons n0 ns =>
      rw [hn] at h1
      simp only [List.cons_append, List.getElem?_cons_zero] at h1
      have : n0 = '-' := Option.some.inj h1
      subst this
      exact absurd (hnameall _ (by rw [hn]; exact List.mem_cons_self _ _)) (by decide)
  · have hk2 : SepAt (name ++ '(' :: (params ++ ')' :: ' ' :: '-' :: '>' :: ' ' :: rt)) k := by
      obtain ⟨h0, h1, h2⟩ := hk
      refine ⟨?_, ?_, ?_⟩
      · simpa only [List.getElem?_cons_succ] using h0
      · simpa only [List.getElem?_cons_succ] using h1
      · simpa only [List.getElem?_cons_succ] using h2
    exact absurd hk2 (entry_rest_no_sep hnameall hparamsall hrtall k)

theorem good_line_no_low_sep {l : List Char} (hg : goodLine l) :
    ∀ o, o ≤ 2 → ¬ SepAt l o := by
  intro o ho hsep
  rcases hg with hwf | hclean
  · have := wf_sepAt_eq_three hwf o hsep; omega
  · exact hasSep_false_not_sepAt hclean o hsep

theorem good_line_no_high_sep {l : List Char} (hg : goodLine l) :
    ∀ j, 4 ≤ j → ¬ SepAt l j := by
  intro j hj hsep
  rcases hg with hwf | hclean
  · have := wf_sepAt_eq_three hwf j hsep; omega
  · exact hasSep_false_not_sepAt hclean j hsep

theorem clean_not_wf {l : List Char} (h : hasSep l = false) : wellFormedLine l = false := by
  cases hwf : wellFormedLine l with
  | false => rfl
  | true =>
    exfalso
    obtain ⟨name, params, rt, hl, -, -, -, -, -, -, -⟩ := wellFormedLine_struct hwf
    subst hl
    have hs : SepAt (' ' :: ' ' :: ' ' :: ' ' :: '-' :: ' ' ::
        (name ++ '(' :: (params ++ ')' :: ' ' :: '-' :: '>' :: ' ' :: rt))) 3 :=
      ⟨by simp, by simp, by simp⟩
    rw [sepAt_hasSep hs] at h
    exact Bool.noConfusion h

theorem append_nl_getElem_high {l J : List Char} {i : Nat} (h : l.length + 1 ≤ i) :
    (l ++ '\n' :: J)[i]? = J[i - l.length - 1]? := by
  rw [List.getElem?_append_right (by omega)]
  rw [show i - l.length = (i - l.length - 1) + 1 from by omega, List.getElem?_cons_succ]
  congr 1

theorem sepAt_append_nl {l J : List Char} {o : Nat} (h : SepAt (l ++ '\n' :: J) o) :
    SepAt l o ∨ (SepAt J (o - l.length - 1) ∧ l.length + 1 ≤ o) := by
  obtain ⟨h0, h1, h2⟩ := h
  rcases Nat.lt_or_ge (o + 2) l.length with hlt | hge
  · left
    rw [List.getElem?_append_left (by omega)] at h0
    rw [List.getElem?_append_left (by omega)] at h1
    rw [List.getElem?_append_left (by omega)] at h2
    exact ⟨h0, h1, h2⟩
  · have hnl : (l ++ '\n' :: J)[l.length]? = some '\n' := by
      rw [List.getElem?_append_right (le_refl _)]
      simp
    rcases Nat.lt_or_ge l.length o with hlo | hol
    · right
      refine ⟨⟨?_, ?_, ?_⟩, by omega⟩
      · rw [← append_nl_getElem_high (by omega)]
        exact h0
      · rw [show o - l.length - 1 + 1 = (o + 1) - l.length - 1 from by omega,
            ← append_nl_getElem_high (by omega)]
        exact h1
      · rw [show o - l.length - 1 + 2 = (o + 2) - l.length - 1 from by omega,
            ← append_nl_getElem_high (by omega)]
        exact h2
    · exfalso
      have hin : l.length = o ∨ l.length = o + 1 ∨ l.length = o + 2 := by omega
      rcases hin with heq | heq | heq
      · rw [heq] at hnl
        have := hnl.symm.trans h0
        simp at this
      · rw [heq] at hnl
        have := hnl.symm.trans h1
        simp at this
      · rw [heq] at hnl
        have := hnl.symm.trans h2
        simp at this

theorem joinLines_no_low_sep : ∀ (ls : List (List Char)), (∀ l ∈ ls, goodLine l) →
    ∀ o, o ≤ 2 → ¬ SepAt (joinLines ls) o := by
  intro ls
  induction ls with
  | nil => intro _ o _; exact SepAt_nil o
  | cons l rest ih =>
    intro hg o ho hsep
    cases rest with
    | nil =>
      have hone : SepAt l o := by simpa [joinLines] using hsep
      exact good_line_no_low_sep (hg l (by simp)) o ho hone
    | cons r2 rs =>
      rw [show joinLines (l :: r2 :: rs) = l ++ '\n' :: joinLines (r2 :: rs) from rfl] at hsep
      rcases sepAt_append_nl hsep with hin | ⟨hJ, -⟩
      · exact good_line_no_low_sep (hg l (by simp)) o ho hin
      · exact ih (fun x hx => hg x (by simp [hx])) (o - l.length - 1) (by omega) hJ

theorem segment_no_match {A tail : List Char}
    (hA : ∀ j, 4 ≤ j → ¬ SepAt A j)
    (htail : tail = [] ∨ ∃ T, tail = '\n' :: T ∧ ∀ o, o ≤ 2 → ¬ SepAt T o) :
    ∀ k, k < A.length → FUNCTION_RE_matchAt (A.drop k ++ tail) = none := by
  intro k hk
  cases hm : FUNCTION_RE_matchAt (A.drop k ++ tail) with
  | none => rfl
  | some p =>
    exfalso
    obtain ⟨h0, h1, h2⟩ := FUNCTION_RE_matchAt_sepAt4 hm
    have hdlen : (A.drop k).length = A.length - k := List.length_drop k A
    rcases Nat.lt_or_ge 6 (A.length - k) with hbig | hsmall
    · have e0 : (A.drop k ++ tail)[4]? = A[k + 4]? := by
        rw [List.getElem?_append_left (by omega), List.getElem?_drop]
      have e1 : (A.drop k ++ tail)[5]? = A[k + 5]? := by
        rw [List.getElem?_append_left (by omega), List.getElem?_drop]
      have e2 : (A.drop k ++ tail)[6]? = A[k + 6]? := by
        rw [List.getElem?_append_left (by omega), List.getElem?_drop]
      refine hA (k + 4) (by omega) ⟨?_, ?_, ?_⟩
      · rw [← e0]; exact h0
      · rw [show k + 4 + 1 = k + 5 from by omega, ← e1]; exact h1
      · rw [show k + 4 + 2 = k + 6 from by omega, ← e2]; exact h2
    · rcases htail with rfl | ⟨T, rfl, hT⟩
      · have : (A.drop k ++ ([] : List Char))[6]? = none := by
          rw [List.getElem?_eq_none]
          simp only [List.length_append, List.length_nil, hdlen]
          omega
        rw [this] at h2
        exact Option.noConfusion h2
      · have hnl : (A.drop k ++ '\n' :: T)[(A.drop k).length]? = some '\n' := by
          rw [List.getElem?_append_right (le_refl _)]
          simp
        have hin : A.length - k = 4 ∨ A.length - k = 5 ∨ A.length - k = 6 ∨
            A.length - k ≤ 3 := by omega
        rcases hin with heq | heq | heq | hle
        · rw [hdlen, heq] at hnl
          have := hnl.symm.trans h0
          simp at this
        · rw [hdlen, heq] at hnl
          have := hnl.symm.trans h1
          simp at this
        · rw [hdlen, heq] at hnl
          have := hnl.symm.trans h2
          simp at this
        · refine hT (3 - (A.length - k)) (by omega) ⟨?_, ?_, ?_⟩
          · rw [show 3 - (A.length - k) = 4 - (A.drop k).length - 1 from by
                  rw [hdlen]; omega,
                ← append_nl_getElem_high (by omega)]
            exact h0
          · rw [show 3 - (A.length - k) + 1 = 5 - (A.drop k).length - 1 from by
                  rw [hdlen]; omega,
                ← append_nl_getElem_high (by omega)]
            exact h1
          · rw [show 3 - (A.length - k) + 2 = 6 - (A.drop k).length - 1 from by
                  rw [hdlen]; omega,
                ← append_nl_getElem_high (by omega)]
            exact h2

theorem findall_eq_cons_of_match {x : List Char} {t : String × String × String}
    {rem : List Char} (hm : FUNCTION_RE_matchAt x = some (t, rem)) :
    FUNCTION_RE_findall x = t :: FUNCTION_RE_findall rem := by
  cases x with
  | nil => simp [FUNCTION_RE_matchAt] at hm
  | cons c r =>
    obtain ⟨-, hlt⟩ := FUNCTION_RE_matchAt_suffix hm
    show findallAux (c :: r).length (c :: r) = _
    rw [show (c :: r).length = r.length + 1 from by simp]
    simp only [findallAux]
    rw [hm]
    show t :: findallAux r.length rem = _
    rw [findallAux_eq_findall (by simp at hlt; omega)]

theorem wf_line_match {l : List Char} (h : wellFormedLine l = true) :
    FUNCTION_RE_matchAt ('\n' :: l) = some (tupleOfLine l, []) := by
  obtain ⟨name, params, rt, -, -, -, -, -, -, hmA, htup⟩ := wellFormedLine_struct h
  rw [htup]
  exact hmA

theorem findall_nl_join : ∀ (ls : List (List Char)), (∀ l ∈ ls, goodLine l) →
    FUNCTION_RE_findall ('\n' :: joinLines ls) =
      (ls.filter (fun l => wellFormedLine l)).map tupleOfLine := by
  intro ls
  induction ls with
  | nil => intro _; rfl
  | cons l rest ih =>
    intro hg
    have hgl : goodLine l := hg l (by simp)
    have hgrest : ∀ x ∈ rest, goodLine x := fun x hx => hg x (by simp [hx])
    rcases hgl with hwf | hclean
    · have hmt := wf_line_match hwf
      cases rest with
      | nil =>
        show FUNCTION_RE_findall ('\n' :: l) = _
        rw [findall_eq_cons_of_match hmt]
        rw [List.filter_cons_of_pos (by simpa using hwf)]
        rfl
      | cons r2 rs =>
        have hsplit : '\n' :: joinLines (l :: r2 :: rs) =
            ('\n' :: l) ++ '\n' :: joinLines (r2 :: rs) := by
          simp [joinLines]
        rw [hsplit]
        have hstep := FUNCTION_RE_matchAt_append '\n' (joinLines (r2 :: rs)) hmt
          (by decide)
        rw [findall_eq_cons_of_match hstep, List.filter_cons_of_pos (by simpa using hwf),
            ih hgrest]
        rfl
    · have hwff : wellFormedLine l = false := clean_not_wf hclean
      have hA : ∀ j, 4 ≤ j → ¬ SepAt ('\n' :: l) j := by
        intro j hj hsep
        have hj1 : j = (j - 1) + 1 := by omega
        rw [hj1] at hsep
        exact hasSep_false_not_sepAt hclean (j - 1) (SepAt_cons_succ.mp hsep)
      cases rest with
      | nil =>
        show FUNCTION_RE_findall ('\n' :: l) = _
        have hnil : '\n' :: l = ('\n' :: l) ++ [] := by simp
        rw [hnil, findall_append_of_nomatch ('\n' :: l) []
          (segment_no_match hA (Or.inl rfl))]
        rw [List.filter_cons_of_neg (by simp [hwff])]
        rfl
      | cons r2 rs =>
        have hsplit : '\n' :: joinLines (l :: r2 :: rs) =
            ('\n' :: l) ++ '\n' :: joinLines (r2 :: rs) := by
          simp [joinLines]
        rw [hsplit]
        rw [findall_append_of_nomatch ('\n' :: l) ('\n' :: joinLines (r2 :: rs))
          (segment_no_match hA (Or.inr ⟨joinLines (r2 :: rs), rfl,
            joinLines_no_low_sep (r2 :: rs) hgrest⟩))]
        rw [List.filter_cons_of_neg (by simp [hwff]), ih hgrest]

theorem findall_joinLines (l0 : List Char) (ls : List (List Char))
    (h0 : goodLine l0) (hls : ∀ l ∈ ls, goodLine l) :
    FUNCTION_RE_findall (joinLines (l0 :: ls)) =
      (ls.filter (fun l => wellFormedLine l)).map tupleOfLine := by
  have hA : ∀ j, 4 ≤ j → ¬ SepAt l0 j := good_line_no_high_sep h0
  cases ls with
  | nil =>
    have hnil : joinLines [l0] = l0 ++ [] := by simp [joinLines]
    rw [hnil, findall_append_of_nomatch l0 [] (segment_no_match hA (Or.inl rfl))]
    rfl
  | cons r rs =>
    have hsplit : joinLines (l0 :: r :: rs) = l0 ++ '\n' :: joinLines (r :: rs) := rfl
    rw [hsplit]
    rw [findall_append_of_nomatch l0 ('\n' :: joinLines (r :: rs))
      (segment_no_match hA (Or.inr ⟨joinLines (r :: rs), rfl,
        joinLines_no_low_sep (r :: rs) hls⟩))]
    exact findall_nl_join (r :: rs) hls

/-! ### Claim theorems -/

/-- C1: for every captured standard-output text, the sequence of tuples the
script prints is exactly the sequence of (name, raw-parameter-list,
return-type) captured-group triples of the non-overlapping, leftmost-first
matches of FUNCTION_RE in that text, in order of first character position,
one printed tuple per match.  Formally: the printed tuples are the triples
of the recorded match spans; the spans are ordered and non-overlapping
(each span ends no later than the next begins); every span is a genuine
match of FUNCTION_RE at its start position extending to its end position;
and every position at which FUNCTION_RE matches lies inside one of the
recorded spans (leftmost-first completeness). -/
theorem C1_printed_tuples_are_leftmost_matches (s : String) :
    scriptTuples s = (FUNCTION_RE_spans s.data).map (fun sp => sp.2.2) ∧
    List.Pairwise (fun sp sq => sp.2.1 ≤ sq.1) (FUNCTION_RE_spans s.data) ∧
    (∀ sp ∈ FUNCTION_RE_spans s.data,
      sp.1 < sp.2.1 ∧
      FUNCTION_RE_matchAt (s.data.drop sp.1) = some (sp.2.2, s.data.drop sp.2.1)) ∧
    (∀ i, (FUNCTION_RE_matchAt (s.data.drop i)).isSome = true →
      ∃ sp ∈ FUNCTION_RE_spans s.data, sp.1 ≤ i ∧ i < sp.2.1) := by
  refine ⟨findallAux_eq_spans_map s.data.length 0 s.data, spansAux_chain _ 0 _, ?_, ?_⟩
  · intro sp hsp
    exact spansAux_sound s.data.length 0 s.data sp (by simpa using hsp)
  · intro i hi
    have h := spansAux_complete s.data.length 0 s.data (by simp) i (Nat.zero_le i) hi
    simpa using h

/-- Witness for C1 at a concrete captured text. -/
theorem C1_printed_tuples_are_leftmost_matches_witness :
    scriptTuples ("hdr\n    - len(s) -> int") =
      (FUNCTION_RE_spans (("hdr\n    - len(s) -> int").data)).map (fun sp => sp.2.2) ∧
    List.Pairwise (fun sp sq => sp.2.1 ≤ sq.1)
      (FUNCTION_RE_spans (("hdr\n    - len(s) -> int").data)) ∧
    (∀ sp ∈ FUNCTION_RE_spans (("hdr\n    - len(s) -> int").data),
      sp.1 < sp.2.1 ∧
      FUNCTION_RE_matchAt ((("hdr\n    - len(s) -> int").data).drop sp.1) =
        some (sp.2.2, (("hdr\n    - len(s) -> int").data).drop sp.2.1)) ∧
    (∀ i, (FUNCTION_RE_matchAt ((("hdr\n    - len(s) -> int").data).drop i)).isSome = true →
      ∃ sp ∈ FUNCTION_RE_spans (("hdr\n    - len(s) -> int").data),
        sp.1 ≤ i ∧ i < sp.2.1) :=
  C1_printed_tuples_are_leftmost_matches ("hdr\n    - len(s) -> int")

/-- C2 (amended): the original claim is false because (i) a well-formed
entry that is the first line of the captured text is not matched — the
pattern requires a whitespace character (in the real output the preceding
newline) before the four spaces — and (ii) a malformed line can produce a
match (see C9).  Amended: for every captured text that is a newline-joined
sequence of lines, each line either a well-formed entry (four spaces,
" - ", identifier, parenthesised parameter list, " -> ", return type
filling the rest of the line) or a line containing no " - " separator at
all, the extractor emits exactly one tuple per well-formed line other than
the first line, in source order, and emits nothing for the separator-free
lines and for a well-formed first line. -/
theorem C2_entries_extracted_malformed_ignored (l0 : List Char) (ls : List (List Char))
    (h0 : goodLine l0) (hls : ∀ l ∈ ls, goodLine l) :
    FUNCTION_RE_findall (joinLines (l0 :: ls)) =
      (ls.filter (fun l => wellFormedLine l)).map tupleOfLine ∧
    (FUNCTION_RE_findall (joinLines (l0 :: ls))).length =
      (ls.filter (fun l => wellFormedLine l)).length := by
  have h := findall_joinLines l0 ls h0 hls
  exact ⟨h, by rw [h, List.length_map]⟩

/-- Counterexample to C2 as stated: a text consisting of exactly one
well-formed entry line (N = 1, M = 0) from which the extractor emits zero
tuples, not one. -/
theorem C2_entries_extracted_malformed_ignored_counterexample :
    wellFormedLine (("    - f(x) -> int").data) = true ∧
    FUNCTION_RE_findall (("    - f(x) -> int").data) = [] := by
  exact ⟨by decide, by decide⟩

/-- Witness for C2 (amended) at a concrete three-line text: a malformed
header, one well-formed entry, one malformed trailer. -/
theorem C2_entries_extracted_malformed_ignored_witness :
    FUNCTION_RE_findall (joinLines [("Available functions:").data,
        ("    - trim(col) -> string").data, ("junk").data]) =
      [("trim", "col", "string")] := by
  have h := (C2_entries_extracted_malformed_ignored (("Available functions:").data)
    [("    - trim(col) -> string").data, ("junk").data]
    (by decide) (by decide)).1
  rw [h]
  decide

/-- C3 (amended): the original claim is false: a line lacking the
four-space indentation prefix can still produce a match (tab indentation,
five spaces, or a mid-line entry all match, because the pattern's
whitespace requirement is the class \s{4} and the pattern is not anchored).
Amended: a captured text that nowhere contains four whitespace characters
directly followed by " - " produces no match and no printed tuple, even if
a line is otherwise shaped like a well-formed entry. -/
theorem C3_no_wsSep_no_match (s : String) (h : hasWsSep s.data = false) :
    scriptTuples s = [] :=
  hasWsSep_false_findallAux s.data.length s.data h

/-- Counterexample to C3 as stated: a well-formed entry occurring mid-line
(so its line does not begin with the four-space prefix) still produces a
printed tuple. -/
theorem C3_no_wsSep_no_match_counterexample :
    scriptTuples ("xs     - f(a) -> b") = [("f", "a", "b")] ∧
    scriptTuples ("xs     - f(a) -> b") ≠ [] := by
  exact ⟨by decide, by decide⟩

/-- Witness for C3 (amended) at a concrete text with no whitespace-plus-
separator occurrence. -/
theorem C3_no_wsSep_no_match_witness :
    hasWsSep (("Usage: xan map [options]").data) = false ∧
    scriptTuples ("Usage: xan map [options]") = [] :=
  ⟨by decide, C3_no_wsSep_no_match ("Usage: xan map [options]") (by decide)⟩

/-- C4 (amended): the original claim is false: on the text consisting of
exactly the single line "    - trim(col) -> string" the extractor prints
nothing, because FUNCTION_RE demands four whitespace characters before the
" - " separator and the bare line supplies only three before its dash.
Amended: if the captured text is a newline followed by that line (as in the
real tool output, where the preceding line's newline supplies the missing
whitespace character), the extractor prints exactly the tuple
("trim", "col", "string"). -/
theorem C4_trim_line_with_newline :
    scriptTuples ("\n    - trim(col) -> string") = [("trim", "col", "string")] := by
  decide

/-- Counterexample to C4 as stated: the exact single-line text produces no
tuple at all. -/
theorem C4_trim_line_with_newline_counterexample :
    scriptTuples ("    - trim(col) -> string") = [] ∧
    scriptTuples ("    - trim(col) -> string") ≠ [("trim", "col", "string")] := by
  exact ⟨by decide, by decide⟩

/-- C5 (amended): as for C4, the bare single-line text matches nothing;
preceded by a newline, the line "    - concat(col1, col2, *) -> string"
produces exactly ("concat", "col1, col2, *", "string"), with the full
multi-token parameter list including the "*" captured as the second
component. -/
theorem C5_concat_line_with_newline :
    scriptTuples ("\n    - concat(col1, col2, *) -> string") =
      [("concat", "col1, col2, *", "string")] := by
  decide

/-- Counterexample to C5 as stated: the exact single-line text produces no
tuple at all. -/
theorem C5_concat_line_with_newline_counterexample :
    scriptTuples ("    - concat(col1, col2, *) -> string") = [] ∧
    scriptTuples ("    - concat(col1, col2, *) -> string") ≠
      [("concat", "col1, col2, *", "string")] := by
  exact ⟨by decide, by decide⟩

/-- C6 (amended): as for C4, the bare single-line text matches nothing;
preceded by a newline, the empty-parameter-list line "    - name() -> type"
still matches, with the parameter-list group captured as the empty
string. -/
theorem C6_empty_params_with_newline :
    scriptTuples ("\n    - name() -> type") = [("name", "", "type")] := by
  decide

/-- Counterexample to C6 as stated: the exact single-line text produces no
match at all. -/
theorem C6_empty_params_with_newline_counterexample :
    scriptTuples ("    - name() -> type") = [] ∧
    scriptTuples ("    - name() -> type") ≠ [("name", "", "type")] := by
  exact ⟨by decide, by decide⟩

/-- C7: the printed output is a function of the captured standard-output
text only: two completed processes with identical stdout yield identical
printed tuples in identical order, whatever their exit statuses (never
inspected) and standard-error contents (captured but never used). -/
theorem C7_output_function_of_stdout_only (p q : CompletedProcess)
    (h : p.stdout = q.stdout) :
    printedTuples (Except.ok p) = printedTuples (Except.ok q) := by
  simp only [printedTuples, runScript, h]

/-- Witness for C7: same stdout, different stderr and different (non-zero)
exit status. -/
theorem C7_output_function_of_stdout_only_witness :
    printedTuples (Except.ok ⟨"\n    - add(a, b) -> number", "", 0⟩) =
      printedTuples (Except.ok
        ⟨"\n    - add(a, b) -> number", "thread panicked", 2⟩) :=
  C7_output_function_of_stdout_only _ _ rfl

/-- C8: if the external executable is missing or cannot be launched, the
script fails with the underlying launch error propagated unhandled to the
caller (there is no try/except around the subprocess call), and no tuple is
printed to standard output, because the printing loop is never reached. -/
theorem C8_launch_failure_propagates (e : LaunchError) :
    runScript (Except.error e) = Except.error e ∧
    printedTuples (Except.error e) = [] :=
  ⟨rfl, rfl⟩

/-- Witness for C8 at a concrete launch error. -/
theorem C8_launch_failure_propagates_witness :
    runScript (Except.error ⟨"FileNotFoundError: ./target/debug/xan"⟩) =
      Except.error ⟨"FileNotFoundError: ./target/debug/xan"⟩ ∧
    printedTuples (Except.error ⟨"FileNotFoundError: ./target/debug/xan"⟩) = [] :=
  C8_launch_failure_propagates ⟨"FileNotFoundError: ./target/debug/xan"⟩

/-- C9: the leading whitespace requirement is the character class \s{4},
not four literal spaces, and the pattern is not anchored to the start of a
line: there are captured texts containing no line indented by four space
characters (a tab-indented entry, and an entry occurring mid-line after
whitespace) for which the extractor still produces a match and prints its
tuple. -/
theorem C9_class_whitespace_unanchored :
    hasFourSpaceLine (("\t\t\t\t - f(a) -> b").data) = false ∧
    scriptTuples ("\t\t\t\t - f(a) -> b") = [("f", "a", "b")] ∧
    hasFourSpaceLine (("zz\t\t\t\t - g(x) -> y | null").data) = false ∧
    scriptTuples ("zz\t\t\t\t - g(x) -> y | null") = [("g", "x", "y | null")] := by
  exact ⟨by decide, by decide, by decide, by decide⟩

/-- C10: the return-type group [a-z\[\]?,| ]+ munches greedily through
letters and spaces: in a captured text in which a well-formed entry is
followed on the same line by further words of letters and spaces, the third
component of the emitted tuple contains those trailing words appended to
the return type, not the return type alone. -/
theorem C10_return_type_greedy_trailing_words :
    scriptTuples ("\n    - f(a) -> int or something else") =
      [("f", "a", "int or something else")] := by
  decide
